import Mathlib

/-!
Verification of the nagi-llm NLU session layer (dictionary codec,
sequence-slot rotation, NLU pipeline normalization and configuration
parsing) against its C sources under `src/lib/nagi-llm/`.

C strings are modelled as lists of byte values (`List Nat`, each element
`< 256`); machine integers are modelled as `Nat` with explicit `% 2 ^ w`
where wrap-around matters.
-/

namespace NagiLLM

/-! ## Session/slot rotation

From `llm_state_t.seq_counter` (include/nagi_llm.h) and the acquisition
expression `current_seq = (state->seq_counter++) % 8` appearing in
`llamacpp_extract_words` (nagi_llm_llamacpp.c:526),
`llamacpp_matches_expected` (:691), `llamacpp_generate_response` (:877)
and `nagi_llm_extract_words` (nagi_llm.c:322). -/

/-- The rotating sequence counter of the backend state
(`llm_state_t.seq_counter`), set to 0 at init. -/
structure SlotState where
  seq_counter : Nat
deriving DecidableEq

/-- The dedicated language-detection sequence id:
`int lang_seq = 7;` in `llm_detect_language` (llm_utils.c:228). -/
def lang_seq : Nat := 7

/-- `current_seq = (state->seq_counter++) % 8`: returns the updated state
and the acquired sequence id (the old counter value modulo 8). -/
def acquire_seq (st : SlotState) : SlotState × Nat :=
  (⟨st.seq_counter + 1⟩, st.seq_counter % 8)

/-- Sequence ids acquired by `n` consecutive pipeline calls starting in
state `st` (each of extract_words / matches_expected / generate_response
performs exactly one acquisition). -/
def seq_trace (st : SlotState) : Nat → List Nat
  | 0 => []
  | n + 1 => (acquire_seq st).2 :: seq_trace (acquire_seq st).1 n

/-- Backend state right after init: `state->seq_counter = 0;`
(nagi_llm_llamacpp.c:247, nagi_llm.c:209). -/
def init_slot_state : SlotState := ⟨0⟩

/-- Claim C2: slot acquisition returns the post-incremented rotation
counter modulo the pool size 8, and a pool of 8 slots serving 20
sequential extraction calls from a fresh backend assigns the slots
0,1,2,...,7,0,1,...,7,0,1,2,3 in exactly that order. -/
theorem C2_slot_rotation :
    (∀ st : SlotState, acquire_seq st = (⟨st.seq_counter + 1⟩, st.seq_counter % 8)) ∧
    seq_trace init_slot_state 20 =
      [0, 1, 2, 3, 4, 5, 6, 7, 0, 1, 2, 3, 4, 5, 6, 7, 0, 1, 2, 3] := by
  exact ⟨fun st => rfl, by decide⟩

/-- Claim C1 (counterexample): the language-detection sequence id 7 IS
returned by the per-call slot rotation — the 8th of 8 consecutive
rotation acquisitions from a fresh backend yields sequence 7. -/
theorem C1_counterexample :
    lang_seq = 7 ∧ lang_seq ∈ seq_trace init_slot_state 8 := by decide

/-- Claim C1 (amended): sequence 7 is the slot `llm_detect_language`
uses, but it is not withheld from the rotation: every acquisition
returns `seq_counter % 8`, whose range includes 7 — the counter state 7
acquires exactly the language-detection sequence. -/
theorem C1_amended :
    lang_seq = 7 ∧
    (∀ st : SlotState, (acquire_seq st).2 = st.seq_counter % 8) ∧
    (acquire_seq ⟨7⟩).2 = lang_seq := by
  exact ⟨rfl, fun st => rfl, rfl⟩

/-! ## Byte strings

C strings are byte lists; a returned buffer's value is the byte list up
to (excluding) the terminating nul the code writes. -/

/-- A C string value: the list of its byte values (each `< 256`). -/
abbrev Bytes := List Nat

/-- Byte values of an ASCII Lean string literal, for writing concrete
C strings in statements. -/
def str (s : String) : Bytes := s.toList.map Char.toNat

/-- `tolower((unsigned char)c)` in the C locale. -/
def c_tolower (b : Nat) : Nat := if 65 ≤ b ∧ b ≤ 90 then b + 32 else b

/-- The whitespace set the pipeline trims explicitly:
`' ' || '\n' || '\r' || '\t'` (bytes 32, 10, 13, 9). -/
def is_ext_space (b : Nat) : Bool := b = 32 || b = 10 || b = 13 || b = 9

/-- Left trim: `while (*trimmed is whitespace) trimmed++;`. -/
def ltrim_ws (s : Bytes) : Bytes := s.dropWhile is_ext_space

/-- Right trim: `end = trimmed + strlen(trimmed) - 1; while (end > trimmed
&& ws) *end-- = 0;`. The code applies it only after the left trim, so the
first byte is never whitespace and the `end > trimmed` guard never
matters; dropping trailing whitespace is therefore exact. -/
def rtrim_ws (s : Bytes) : Bytes := (s.reverse.dropWhile is_ext_space).reverse

/-- Extraction normalization (nagi_llm_llamacpp.c:618-641,
nagi_llm_cloud_impl.c:102-110): trim both ends, then lowercase. -/
def normalize_extract (r : Bytes) : Bytes := (rtrim_ws (ltrim_ws r)).map c_tolower

/-- Semantic-match normalization (nagi_llm_llamacpp.c:806-814): lowercase
every byte of the response, then trim leading whitespace only. -/
def normalize_match (r : Bytes) : Bytes := ltrim_ws (r.map c_tolower)

/-- `strstr(hay, needle) != NULL`: some suffix of `hay` starts with
`needle`. -/
def contains_sub (hay needle : Bytes) : Bool :=
  (List.range (hay.length + 1)).any (fun i => needle.isPrefixOf (hay.drop i))

/-! ## NLU pipeline calls with the inference engine abstracted

The llama.cpp tokenize/decode/sample primitives are external; one local
pipeline call observes them only as one of three outcomes. `sampled raw`
is the byte content the generation loop accumulated in the response
buffer (covering end-of-generation, the newline stop, the token cap and
a decode failure during generation, all of which fall through to the
normalization step). -/

/-- Outcome of the tokenize/decode/sample sequence of one local call. -/
inductive EngineRun where
  /-- `llama_tokenize` returned a negative count. -/
  | tokenizeFail
  /-- `llama_decode` failed while processing the prompt batches. -/
  | promptDecodeFail
  /-- generation reached the normalization step with `raw` accumulated. -/
  | sampled (raw : Bytes)
deriving DecidableEq

/-- Which pointer a call returned: the caller's input pointer or the
function's `static char response_buf[]`. -/
inductive RetPtr where
  | inputPtr
  | staticBuf
deriving DecidableEq

/-- Dereference a call's returned pointer later: `input` is the string
the caller passed (what `inputPtr` points at), `buf` the current
contents of the static response buffer. -/
def read_ptr (p : RetPtr) (input : Bytes) (buf : Bytes) : Bytes :=
  match p with
  | .inputPtr => input
  | .staticBuf => buf

/-- `llamacpp_extract_words` (nagi_llm_llamacpp.c:497-643) with the
static `response_buf` made explicit state. The caller's string is
`Option Bytes` (`none` models a NULL pointer). Failure paths
(`!llamacpp_ready`, NULL or empty input, negative tokenize count,
decode failure on a prompt batch) return the input pointer and leave
the buffer unchanged; otherwise the buffer is overwritten with the
normalized response (accumulate, trim, lowercase, memmove to the
front) and the buffer pointer is returned. -/
def llamacpp_extract_words_st (buf : Bytes) (ready : Bool)
    (input : Option Bytes) (eng : EngineRun) : Bytes × RetPtr :=
  if !ready then (buf, .inputPtr)
  else match input with
  | none => (buf, .inputPtr)
  | some s =>
    if s = [] then (buf, .inputPtr)
    else match eng with
    | .tokenizeFail => (buf, .inputPtr)
    | .promptDecodeFail => (buf, .inputPtr)
    | .sampled raw => (normalize_extract raw, .staticBuf)

/-- The string value `llamacpp_extract_words` returns (NULL input is
echoed as NULL, which is what `return input` does there). -/
def llamacpp_extract_words (ready : Bool) (input : Option Bytes)
    (eng : EngineRun) : Option Bytes :=
  match llamacpp_extract_words_st [] ready input eng with
  | (_, .inputPtr) => input
  | (b, .staticBuf) => some b

/-- `cloud_extract_words` (nagi_llm_cloud_impl.c:80-113) with its static
`response_buf` made explicit state. `has_templates` models the
`llm->extraction_prompt_template / _simple` availability check; `gen`
is the `nagi_llm_cloud_generate` outcome, `none` when it returned a
length `<= 0`. -/
def cloud_extract_words_st (buf : Bytes) (has_templates : Bool)
    (input : Option Bytes) (gen : Option Bytes) : Bytes × RetPtr :=
  match input with
  | none => (buf, .inputPtr)
  | some s =>
    if s = [] then (buf, .inputPtr)
    else if !has_templates then (buf, .inputPtr)
    else match gen with
    | none => (buf, .inputPtr)
    | some raw => (normalize_extract raw, .staticBuf)

/-- The string value `cloud_extract_words` returns. -/
def cloud_extract_words (has_templates : Bool) (input : Option Bytes)
    (gen : Option Bytes) : Option Bytes :=
  match cloud_extract_words_st [] has_templates input gen with
  | (_, .inputPtr) => input
  | (b, .staticBuf) => some b

/-- Here is the response classification of `llamacpp_matches_expected`
(nagi_llm_llamacpp.c:651-841). `expected_command` is the phrase joined
from the resolved expected word ids (empty when none resolved, which
also covers `expected_count == 0`); the engine is abstracted as in
extraction. Returns the C int result. -/
def llamacpp_matches_expected (ready : Bool) (expected_command : Bytes)
    (eng : EngineRun) : Nat :=
  if !ready then 0
  else if expected_command = [] then 0
  else match eng with
  | .tokenizeFail => 0
  | .promptDecodeFail => 0
  | .sampled raw =>
    let trimmed := normalize_match raw
    if (str "yes").isPrefixOf trimmed then 1
    else if (str "no").isPrefixOf trimmed then 0
    else 0

/-- `cloud_matches_expected` (nagi_llm_cloud_impl.c:138-158): after the
remote call, `return (strstr(response, "yes") != NULL);` on the RAW
response — no lowercasing, no trim, no prefix requirement. `gen` is
`none` when `nagi_llm_cloud_generate` returned a length `<= 0`. -/
def cloud_matches_expected (gen : Option Bytes) : Nat :=
  match gen with
  | none => 0
  | some response => if contains_sub response (str "yes") then 1 else 0

/-- Claim C4 (counterexample): the cloud backend's matches_expected
returns a positive match for the sampled response "maybe yes", whose
normalized form is not prefixed with "yes" — the claim requires no
match for any such response. -/
theorem C4_counterexample :
    cloud_matches_expected (some (str "maybe yes")) = 1 ∧
    (str "yes").isPrefixOf (normalize_match (str "maybe yes")) = false := by
  decide

/-- Claim C4 (amended): the llamacpp backend matches exactly when it is
ready, some expected word resolved, and the sampled response lowercased
and left-trimmed is strictly prefixed with "yes" (so "no", empty,
garbled or "maybe" responses never match); the cloud backend instead
matches exactly when the remote call produced text containing the
substring "yes" anywhere, case-sensitively. -/
theorem C4_amended :
    (∀ (ready : Bool) (ec : Bytes) (eng : EngineRun),
      llamacpp_matches_expected ready ec eng = 1 ↔
        (ready = true ∧ ec ≠ [] ∧
          ∃ raw, eng = .sampled raw ∧
            (str "yes").isPrefixOf (normalize_match raw) = true)) ∧
    (∀ gen : Option Bytes,
      cloud_matches_expected gen = 1 ↔
        ∃ r, gen = some r ∧ contains_sub r (str "yes") = true) := by
  constructor
  · intro ready ec eng
    cases ready with
    | false => simp [llamacpp_matches_expected]
    | true =>
      by_cases hec : ec = []
      · simp [llamacpp_matches_expected, hec]
      · cases eng with
        | tokenizeFail => simp [llamacpp_matches_expected, hec]
        | promptDecodeFail => simp [llamacpp_matches_expected, hec]
        | sampled raw =>
          by_cases hyes : (str "yes") <+: (normalize_match raw)
          · simp [llamacpp_matches_expected, hec, hyes]
          · by_cases hno : (str "no") <+: (normalize_match raw)
            · simp [llamacpp_matches_expected, hec, hyes, hno]
            · simp [llamacpp_matches_expected, hec, hyes, hno]
  · intro gen
    cases gen with
    | none => simp [cloud_matches_expected]
    | some r =>
      by_cases h : contains_sub r (str "yes") = true
      · simp [cloud_matches_expected, h]
      · simp [cloud_matches_expected, h]

/-- Claim C5: on every precondition failure (backend not ready, NULL or
empty input) and every engine-step failure (negative tokenize count,
prompt decode failure, remote generation without text) extract_words
returns the original input unchanged; a non-NULL input never yields a
NULL result. -/
theorem C5_extract_never_destructive :
    (∀ (input : Option Bytes) (eng : EngineRun),
      llamacpp_extract_words false input eng = input) ∧
    (∀ (ready : Bool) (input : Option Bytes),
      llamacpp_extract_words ready input .tokenizeFail = input) ∧
    (∀ (ready : Bool) (input : Option Bytes),
      llamacpp_extract_words ready input .promptDecodeFail = input) ∧
    (∀ (ready : Bool) (eng : EngineRun),
      llamacpp_extract_words ready (some []) eng = some []) ∧
    (∀ (ht : Bool) (input : Option Bytes),
      cloud_extract_words ht input none = input) ∧
    (∀ (gen : Option Bytes), cloud_extract_words false (some []) gen = some []) ∧
    (∀ (ready : Bool) (input : Option Bytes) (eng : EngineRun),
      input ≠ none → llamacpp_extract_words ready input eng ≠ none) ∧
    (∀ (ht : Bool) (input : Option Bytes) (gen : Option Bytes),
      input ≠ none → cloud_extract_words ht input gen ≠ none) := by
  refine ⟨?_, ?_, ?_, ?_, ?_, ?_, ?_, ?_⟩
  · intro input eng
    cases input <;> rfl
  · intro ready input
    cases ready <;> cases input with
    | none => rfl
    | some s =>
      first
      | rfl
      | by_cases hs : s = [] <;>
          simp [llamacpp_extract_words, llamacpp_extract_words_st, hs]
  · intro ready input
    cases ready <;> cases input with
    | none => rfl
    | some s =>
      first
      | rfl
      | by_cases hs : s = [] <;>
          simp [llamacpp_extract_words, llamacpp_extract_words_st, hs]
  · intro ready eng
    cases ready <;> rfl
  · intro ht input
    cases input with
    | none => rfl
    | some s =>
      by_cases hs : s = [] <;> cases ht <;>
        simp [cloud_extract_words, cloud_extract_words_st, hs]
  · intro gen; rfl
  · intro ready input eng hin
    cases input with
    | none => exact absurd rfl hin
    | some s =>
      cases ready with
      | false => simp [llamacpp_extract_words, llamacpp_extract_words_st]
      | true =>
        by_cases hs : s = [] <;> cases eng <;>
          simp [llamacpp_extract_words, llamacpp_extract_words_st, hs]
  · intro ht input gen hin
    cases input with
    | none => exact absurd rfl hin
    | some s =>
      by_cases hs : s = [] <;> cases ht <;> cases gen <;>
        simp [cloud_extract_words, cloud_extract_words_st, hs]

/-- Witness for C5 at concrete inputs: a not-ready backend, a failed
tokenize, a failed remote call and the never-NULL guarantee, all at the
input "mira el castillo". -/
theorem C5_extract_never_destructive_witness :
    llamacpp_extract_words false (some (str "mira el castillo")) (.sampled (str "look castle"))
        = some (str "mira el castillo") ∧
    llamacpp_extract_words true (some (str "mira el castillo")) .tokenizeFail
        = some (str "mira el castillo") ∧
    cloud_extract_words true (some (str "mira el castillo")) none
        = some (str "mira el castillo") ∧
    llamacpp_extract_words true (some (str "mira el castillo")) (.sampled (str "look castle")) ≠ none :=
  ⟨C5_extract_never_destructive.1 (some (str "mira el castillo")) (.sampled (str "look castle")),
   C5_extract_never_destructive.2.1 true (some (str "mira el castillo")),
   C5_extract_never_destructive.2.2.2.2.1 true (some (str "mira el castillo")),
   C5_extract_never_destructive.2.2.2.2.2.2.1 true (some (str "mira el castillo"))
     (.sampled (str "look castle")) (by decide)⟩

/-- Claim C9 (counterexample): the string returned by one successful
extract_words call IS overwritten by the next successful call — both
return the same static buffer. After a first call extracting
" Look castle\n" and a second extracting "get key", dereferencing the
first call's returned pointer yields "get key", no longer the first
call's own result "look castle". -/
theorem C9_counterexample :
    (llamacpp_extract_words_st [] true (some (str "mira el castillo"))
        (.sampled (str " Look castle\n"))).2 = .staticBuf ∧
    (llamacpp_extract_words_st [] true (some (str "mira el castillo"))
        (.sampled (str " Look castle\n"))).1 = str "look castle" ∧
    read_ptr
      (llamacpp_extract_words_st [] true (some (str "mira el castillo"))
        (.sampled (str " Look castle\n"))).2
      (str "mira el castillo")
      (llamacpp_extract_words_st
        (llamacpp_extract_words_st [] true (some (str "mira el castillo"))
          (.sampled (str " Look castle\n"))).1
        true (some (str "coge la llave")) (.sampled (str "get key"))).1
      = str "get key" ∧
    str "get key" ≠ str "look castle" := by
  refine ⟨rfl, by decide, by decide, by decide⟩

/-- Claim C9 (amended): extraction results are not fresh per call: every
successful llamacpp extract_words call returns a pointer to the one
static response buffer, overwriting it with the normalized response, so
after a second successful call the first call's returned string reads as
the second call's result (the cloud backend's extract_words behaves the
same way with its own static buffer). -/
theorem C9_amended :
    ∀ (buf s₁ s₂ r₁ r₂ : Bytes), s₁ ≠ [] → s₂ ≠ [] →
      (llamacpp_extract_words_st buf true (some s₁) (.sampled r₁)).2 = .staticBuf ∧
      (llamacpp_extract_words_st buf true (some s₁) (.sampled r₁)).1 = normalize_extract r₁ ∧
      read_ptr (llamacpp_extract_words_st buf true (some s₁) (.sampled r₁)).2 s₁
        (llamacpp_extract_words_st
          (llamacpp_extract_words_st buf true (some s₁) (.sampled r₁)).1
          true (some s₂) (.sampled r₂)).1
        = normalize_extract r₂ ∧
      (cloud_extract_words_st buf true (some s₁) (some r₁)).2 = .staticBuf ∧
      (cloud_extract_words_st buf true (some s₁) (some r₁)).1 = normalize_extract r₁ := by
  intro buf s₁ s₂ r₁ r₂ h₁ h₂
  refine ⟨?_, ?_, ?_, ?_, ?_⟩ <;>
    simp [llamacpp_extract_words_st, cloud_extract_words_st, read_ptr, h₁, h₂]

/-! ## Language detection validation

`llm_detect_language` (llm_utils.c:205-322) samples a short detection
result, trims it and validates it against a seed list;
`cloud_detect_language` (nagi_llm_cloud_impl.c:160-216) does the same
remotely with a different validation. Only the trim + validate steps
are modelled; the sampled/generated text is the model's input. -/

/-- The local trim (llm_utils.c:282-285): skip leading spaces and
newlines; then clear trailing spaces, newlines and periods, but the
`end > p` guard never clears the first byte. -/
def llm_detect_trim (s : Bytes) : Bytes :=
  match s.dropWhile (fun b => b = 32 || b = 10) with
  | [] => []
  | c :: rest => c :: (rest.reverse.dropWhile (fun b => b = 32 || b = 10 || b = 46)).reverse

/-- The seed language names, in the order of the strncmp cascade of
llm_utils.c:288-305 (each compared by its own length, i.e. as a
prefix of the trimmed result). -/
def local_languages : List Bytes :=
  [str "English", str "Spanish", str "French", str "German", str "Italian",
   str "Portuguese", str "Russian", str "Japanese", str "Chinese"]

/-- The validation cascade of `llm_detect_language` (llm_utils.c:287-311)
on the trimmed result `p`: the first seed name that is a prefix of `p`
wins (the cascade tests them in order, which coincides with the first
match of an ordered scan); otherwise `p` itself is kept when
`strlen(p) > 2 && strlen(p) < 32`, else the result is "English". -/
def llm_detect_validate (p : Bytes) : Bytes :=
  match local_languages.find? (fun L => L.isPrefixOf p) with
  | some L => L
  | none => if 2 < p.length ∧ p.length < 32 then p else str "English"

/-- The cloud trim (nagi_llm_cloud_impl.c:182-193): skip leading spaces,
newlines, carriage returns and tabs; then drop the same plus periods
from the end (this loop may clear the whole string). -/
def cloud_detect_trim (s : Bytes) : Bytes :=
  let l := s.dropWhile (fun b => b = 32 || b = 10 || b = 13 || b = 9)
  (l.reverse.dropWhile (fun b => b = 32 || b = 10 || b = 13 || b = 9 || b = 46)).reverse

/-- The seed language names in the cloud scan order
(nagi_llm_cloud_impl.c:196-197). -/
def cloud_languages : List Bytes :=
  [str "Spanish", str "English", str "French", str "German", str "Italian",
   str "Portuguese", str "Russian", str "Japanese", str "Chinese"]

/-- The cloud validation (nagi_llm_cloud_impl.c:199-205): the first seed
name occurring as a substring (`strstr`) of the trimmed result wins;
anything else falls back to "English" — an unrecognized language is
never accepted verbatim here. -/
def cloud_detect_validate (p : Bytes) : Bytes :=
  match cloud_languages.find? (fun L => contains_sub p L) with
  | some L => L
  | none => str "English"

/-- Claim C6 (counterexample): the trimmed detection result "Catalan" is
not a seed language and has length 7 (strictly between 2 and 32), so the
claim requires it to be accepted verbatim — but the cloud backend's
detection maps it to "English". -/
theorem C6_counterexample :
    (str "Catalan") ∉ cloud_languages ∧
    2 < (str "Catalan").length ∧ (str "Catalan").length < 32 ∧
    cloud_detect_validate (str "Catalan") = str "English" ∧
    str "Catalan" ≠ str "English" := by
  decide

/-- Claim C6 (amended): the local detector accepts a trimmed result
verbatim exactly when no seed name is a prefix of it and its length is
strictly between 2 and 32 (falling back to "English" otherwise, and
normalizing to the seed name on a prefix match); the cloud detector
never accepts an unrecognized result verbatim — whenever no seed name
occurs as a substring the detected language is exactly "English". -/
theorem C6_amended :
    (∀ p : Bytes, (∀ L ∈ local_languages, ¬ L.isPrefixOf p = true) →
      llm_detect_validate p =
        if 2 < p.length ∧ p.length < 32 then p else str "English") ∧
    (∀ p : Bytes, (∀ L ∈ cloud_languages, ¬ contains_sub p L = true) →
      cloud_detect_validate p = str "English") := by
  constructor
  · intro p h
    have hfind : local_languages.find? (fun L => L.isPrefixOf p) = none := by
      rw [List.find?_eq_none]
      intro L hL
      simpa using h L hL
    simp [llm_detect_validate, hfind]
  · intro p h
    have hfind : cloud_languages.find? (fun L => contains_sub p L) = none := by
      rw [List.find?_eq_none]
      intro L hL
      simpa using h L hL
    simp [cloud_detect_validate, hfind]

/-- Witness for C6 (amended): the unrecognized results "Quenya"
(length 6, accepted verbatim locally) and "zzz" (no seed substring,
mapped to "English" by the cloud detector). -/
theorem C6_amended_witness :
    llm_detect_validate (str "Quenya") =
      (if 2 < (str "Quenya").length ∧ (str "Quenya").length < 32
        then str "Quenya" else str "English") ∧
    cloud_detect_validate (str "zzz") = str "English" :=
  ⟨C6_amended.1 (str "Quenya") (by decide),
   C6_amended.2 (str "zzz") (by decide)⟩

/-! ## Dictionary codec (WORDS.TOK)

`get_word_string` (llm_utils.c:38-110; an identical static copy lives at
nagi_llm_llamacpp.c:304-400) walks the 26 letter chains of the
prefix-compressed word table. The 64-byte decode buffer is modelled as a
64-element list threaded explicitly (it is `static`, so its contents
persist across letters and calls); a C loop without its own bound is
given a fuel argument large enough that it never runs out on data the
loop itself terminates on (the character loop writes at most 63 bytes;
the record loop is called with fuel `d.length + 1`, and every encoded
record occupies at least 4 bytes). -/

/-- Read a data byte: C reads a `u8` through a pointer. Positions past
the supplied data read as 0 (the C read there is out of bounds). -/
def byteAt (d : Bytes) (i : Nat) : Nat := d.getD i 0

/-- `load_be_16`: `(u16)((ptr[0] << 8) | ptr[1])`. -/
def load_be_16 (b0 b1 : Nat) : Nat := (b0 <<< 8) ||| b1

/-- Character decoding: `(byte & 0x7F) ^ 0x7F`. -/
def decode_char (b : Nat) : Nat := (b &&& 127) ^^^ 127

/-- Last-character test: `byte & 0x80`. -/
def is_last_char (b : Nat) : Bool := b &&& 128 ≠ 0

/-- The value of a C string stored in a buffer: its bytes up to the
first nul. -/
def c_str (buf : Bytes) : Bytes := buf.takeWhile (fun b => b ≠ 0)

/-- The character loop of `get_word_string` (llm_utils.c:68-87): write
`decode_char byte` at `buffer[len]` while `len < 63` (on an over-long
word it logs and breaks WITHOUT consuming the byte), stop after the
high-bit byte. Returns the buffer, the new `len` and the next read
position. `fuel ≥ 64` never runs out (each recursive step increases
`len < 63`). -/
def gw_chars (d : Bytes) : Nat → Bytes → Nat → Nat → Bytes × Nat × Nat
  | 0, buf, len, pos => (buf, len, pos)
  | fuel + 1, buf, len, pos =>
    let byte := byteAt d pos
    if len < 63 then
      let buf1 := buf.set len (decode_char byte)
      if is_last_char byte then (buf1, len + 1, pos + 1)
      else gw_chars d fuel buf1 (len + 1) (pos + 1)
    else (buf, len, pos)

/-- The per-letter record loop of `get_word_string` (llm_utils.c:57-102):
read the prefix-count byte (a zero after at least one record ends the
chain), run the character loop with `len = prefix_count`, nul-terminate,
read the big-endian id and compare it against `(u16)word_id`; on a match
return the buffer's C string. Also returns the final buffer. -/
def gw_scan (d : Bytes) (target : Nat) : Nat → Bytes → Nat → Bool → Option Bytes × Bytes
  | 0, buf, _, _ => (none, buf)
  | fuel + 1, buf, pos, first =>
    let pcount := byteAt d pos
    if !first && pcount = 0 then (none, buf)
    else
      let r := gw_chars d 64 buf pcount (pos + 1)
      let buf2 := r.1.set r.2.1 0
      let id := load_be_16 (byteAt d r.2.2) (byteAt d (r.2.2 + 1))
      if id = target % 65536 then (some (c_str buf2), buf2)
      else gw_scan d target fuel buf2 (r.2.2 + 2) false

/-- The letter loop of `get_word_string` (llm_utils.c:49-103): for each
of the 26 header offsets, skip zero offsets, otherwise set
`buffer[0] = 0` and scan that chain; return on the first match. `i` is
the current letter, `k` the number of letters left (`i + k = 26`). -/
def gw_letters (d : Bytes) (target : Nat) : Nat → Nat → Bytes → Option Bytes
  | _, 0, _ => none
  | i, k + 1, buf =>
    let off := load_be_16 (byteAt d (i * 2)) (byteAt d (i * 2 + 1))
    if off = 0 then gw_letters d target (i + 1) k buf
    else
      match gw_scan d target (d.length + 1) (buf.set 0 0) off true with
      | (some w, _) => some w
      | (none, buf2) => gw_letters d target (i + 1) k buf2

/-- `get_word_string` (llm_utils.c:38-110): `none` models the NULL
return (dictionary absent or id not found). `buf` is the current
contents of the static 64-byte decode buffer; for well-formed data the
result does not depend on it. -/
def get_word_string (dict : Option Bytes) (word_id : Nat) (buf : Bytes) : Option Bytes :=
  match dict with
  | none => none
  | some d => gw_letters d word_id 0 26 buf

/-! ### Encoding a dictionary

The WORDS.TOK layout the decoder reads (also described in the comment
block at llm_utils.c:26-34): a 52-byte header of 26 big-endian offsets,
then per-letter chains of records
`prefix_count, encoded chars (bits 0-6 = char XOR 0x7F, bit 7 on the
last), id_hi, id_lo`, each nonempty chain terminated by a 0 byte.
Letters without words get offset 0. -/

/-- One stored word record: the prefix-count byte, the decoded
characters stored in this record, and the 16-bit word id. -/
structure WordRec where
  plen : Nat
  suffix : Bytes
  id : Nat
deriving DecidableEq

/-- Encode the characters of a record; the last byte carries the high
bit. -/
def encode_chars : Bytes → Bytes
  | [] => []
  | [c] => [(c ^^^ 127) + 128]
  | c :: c2 :: rest => (c ^^^ 127) :: encode_chars (c2 :: rest)

/-- Encode one record: prefix byte, characters, big-endian id. -/
def encode_rec (r : WordRec) : Bytes :=
  r.plen :: (encode_chars r.suffix ++ [r.id / 256, r.id % 256])

/-- The record bytes of a chain, without the terminator. -/
def chain_bytes (c : List WordRec) : Bytes := (c.map encode_rec).flatten

/-- A nonempty chain's encoded body, with its 0 terminator. -/
def encode_chain (c : List WordRec) : Bytes := chain_bytes c ++ [0]

/-- Encoded length a chain occupies in the body (0 for an empty chain,
which is represented only by a zero offset). -/
def chain_len (c : List WordRec) : Nat :=
  if c = [] then 0 else (chain_bytes c).length + 1

/-- The 52-byte offset header: two big-endian bytes per letter, `0 0`
for an empty chain, otherwise the running position of that chain's
body. -/
def enc_header : List (List WordRec) → Nat → Bytes
  | [], _ => []
  | c :: rest, pos =>
    (if c = [] then [0, 0] else [pos / 256, pos % 256]) ++
      enc_header rest (pos + chain_len c)

/-- The concatenated chain bodies. -/
def enc_body (chains : List (List WordRec)) : Bytes :=
  (chains.map (fun c => if c = [] then [] else encode_chain c)).flatten

/-- A whole encoded dictionary: header (at positions 0..51) then body
(starting at position 52). -/
def encode_dict (chains : List (List WordRec)) : Bytes :=
  enc_header chains 52 ++ enc_body chains

/-- Body start position of chain `i`. -/
def start_pos (chains : List (List WordRec)) (i : Nat) : Nat :=
  52 + ((chains.take i).map chain_len).sum

/-- The full decoded words of a chain with their ids: each record keeps
`plen` bytes of the previous word and appends its own characters. -/
def full_words (prev : Bytes) : List WordRec → List (Bytes × Nat)
  | [] => []
  | r :: rest =>
    (prev.take r.plen ++ r.suffix, r.id) ::
      full_words (prev.take r.plen ++ r.suffix) rest

/-- All (word, id) pairs of a dictionary, in the decoder's scan order. -/
def dict_words (chains : List (List WordRec)) : List (Bytes × Nat) :=
  (chains.map (fun c => full_words [] c)).flatten

/-- Well-formedness of one record relative to the previous decoded
word's length: the kept prefix exists, at least one character is
stored, characters are nonzero bytes below 128 (so they decode and the
C string reads back exactly), the decoded word fits the 63 usable
buffer bytes, and the id fits 16 bits. -/
def wf_rec (prevLen : Nat) (r : WordRec) : Bool :=
  decide (r.plen ≤ prevLen) && !r.suffix.isEmpty &&
    r.suffix.all (fun b => decide (0 < b) && decide (b < 128)) &&
    decide (r.plen + r.suffix.length ≤ 63) && decide (r.id < 65536)

/-- Record list well-formedness, threading the previous word length. -/
def wf_recs : Nat → List WordRec → Bool
  | _, [] => true
  | prevLen, r :: rest =>
    wf_rec prevLen r && wf_recs (r.plen + r.suffix.length) rest

/-- Chain well-formedness: records are well-formed starting from no
previous word (so the first record keeps prefix length 0), and every
later record keeps at least one byte (a zero prefix byte would read as
the chain terminator). -/
def wf_chain (c : List WordRec) : Bool :=
  wf_recs 0 c && (c.drop 1).all (fun r => decide (1 ≤ r.plen))

/-- Dictionary well-formedness: 26 chains, each well-formed, globally
unique ids, and a total encoded size whose offsets fit the 16-bit
header fields. -/
def wf_dict (chains : List (List WordRec)) : Bool :=
  decide (chains.length = 26) && chains.all wf_chain &&
    decide (((dict_words chains).map Prod.snd).Nodup) &&
    decide ((encode_dict chains).length ≤ 65535)

/-! ### Codec lemmas -/

/-- Character encode/decode facts for one byte value below 128. -/
theorem byte_facts : ∀ c < 128,
    decode_char (c ^^^ 127) = c ∧ decode_char ((c ^^^ 127) + 128) = c ∧
    is_last_char (c ^^^ 127) = false ∧ is_last_char ((c ^^^ 127) + 128) = true := by
  decide

/-- The shifted or of two bytes is plain base-256 arithmetic. -/
theorem load_be_16_eq (b0 b1 : Nat) (h : b1 < 256) :
    load_be_16 b0 b1 = 256 * b0 + b1 := by
  have hs : b0 <<< 8 = 2 ^ 8 * b0 := by
    rw [Nat.shiftLeft_eq]; ring
  have := (Nat.mul_add_lt_is_or (show b1 < 2 ^ 8 by omega) b0).symm
  simp only [load_be_16, hs, this]

/-- A 16-bit value round-trips through its two header bytes. -/
theorem load_be_roundtrip (p : Nat) (h : p < 65536) :
    load_be_16 (p / 256) (p % 256) = p := by
  rw [load_be_16_eq _ _ (Nat.mod_lt _ (by omega))]
  omega

theorem byteAt_drop (d : Bytes) (i j : Nat) :
    byteAt (d.drop i) j = byteAt d (i + j) := by
  simp [byteAt, List.getElem?_drop]

theorem byteAt_of_drop_eq {d : Bytes} {i : Nat} {l : Bytes}
    (h : d.drop i = l) (j : Nat) : byteAt d (i + j) = byteAt l j := by
  rw [← byteAt_drop, h]

theorem drop_succ_of_drop_cons {d : Bytes} {i : Nat} {a : Nat} {l : Bytes}
    (h : d.drop i = a :: l) : d.drop (i + 1) = l := by
  have : (d.drop i).drop 1 = l := by rw [h]; rfl
  rwa [List.drop_drop] at this

theorem encode_chars_length : ∀ s : Bytes, (encode_chars s).length = s.length
  | [] => rfl
  | [_] => rfl
  | _ :: c2 :: rest => by
    simp only [encode_chars, List.length_cons]
    rw [encode_chars_length (c2 :: rest)]
    simp

/-- A C string readback: a nonzero word followed by a nul reads back as
exactly the word. -/
theorem c_str_append_zero : ∀ (w t : Bytes), (∀ b ∈ w, b ≠ 0) →
    c_str (w ++ 0 :: t) = w
  | [], _, _ => by simp [c_str]
  | b :: w, t, h => by
    have hb : b ≠ 0 := h b (by simp)
    have ih := c_str_append_zero w t (fun x hx => h x (by simp [hx]))
    simp only [c_str, ne_eq, decide_not, List.cons_append, List.takeWhile_cons] at ih ⊢
    simp [hb, ih]

/-- The character loop on an encoded character run: with enough room it
writes the decoded characters at `buffer[len..]` and stops right after
the final high-bit byte. -/
theorem gw_chars_spec (d : Bytes) :
    ∀ (s : Bytes) (fuel : Nat) (buf : Bytes) (len pos : Nat) (rest : Bytes),
      s ≠ [] → (∀ b ∈ s, b < 128) → len + s.length ≤ 63 → buf.length = 64 →
      s.length ≤ fuel →
      d.drop pos = encode_chars s ++ rest →
      gw_chars d fuel buf len pos =
        (buf.take len ++ s ++ buf.drop (len + s.length), len + s.length, pos + s.length) := by
  intro s
  induction s with
  | nil => intro fuel buf len pos rest hne; exact absurd rfl hne
  | cons c tl ih =>
    intro fuel buf len pos rest _ hlt hroom hbuf hfuel hd
    have hc : c < 128 := hlt c (by simp)
    match fuel, hfuel with
    | f + 1, hf =>
    cases tl with
    | nil =>
      have hbyte : byteAt d pos = (c ^^^ 127) + 128 := by
        have := byteAt_of_drop_eq (by simpa [encode_chars] using hd) 0
        simpa [byteAt] using this
      have hlen : len < 63 := by simp at hroom; omega
      have hdec : decode_char (byteAt d pos) = c := by
        rw [hbyte]; exact (byte_facts c hc).2.1
      have hlast : is_last_char (byteAt d pos) = true := by
        rw [hbyte]; exact (byte_facts c hc).2.2.2
      have hset := @List.set_eq_take_append_cons_drop Nat buf len (decode_char (byteAt d pos))
      rw [if_pos (show len < buf.length by omega)] at hset
      simp only [gw_chars, hlast, if_pos hlen, if_true]
      rw [hset, hdec]
      simp
    | cons c2 tl2 =>
      have hbyte : byteAt d pos = c ^^^ 127 := by
        have := byteAt_of_drop_eq (by simpa [encode_chars] using hd) 0
        simpa [byteAt] using this
      have hlen : len < 63 := by simp at hroom; omega
      have hdrop : d.drop (pos + 1) = encode_chars (c2 :: tl2) ++ rest := by
        exact drop_succ_of_drop_cons (show d.drop pos = (c ^^^ 127) :: (encode_chars (c2 :: tl2) ++ rest) by simpa [encode_chars] using hd)
      have hset := @List.set_eq_take_append_cons_drop Nat buf len (decode_char (byteAt d pos))
      rw [if_pos (show len < buf.length by omega)] at hset
      have hdec : decode_char (byteAt d pos) = c := by
        rw [hbyte]; exact (byte_facts c hc).1
      have hlast : is_last_char (byteAt d pos) = false := by
        rw [hbyte]; exact (byte_facts c hc).2.2.1
      have hbuf1 : (buf.set len (decode_char (byteAt d pos))).length = 64 := by
        simpa using hbuf
      have hrec := ih f (buf.set len (decode_char (byteAt d pos))) (len + 1) (pos + 1) rest
        (by simp) (fun b hb => hlt b (by simp [hb]))
        (by simp at hroom ⊢; omega) hbuf1 (by simp at hf ⊢; omega) hdrop
      simp only [gw_chars, hlast, if_pos hlen, Bool.false_eq_true, if_false]
      rw [hrec, hset, hdec]
      have h1 : (buf.take len ++ c :: buf.drop (len + 1)).take (len + 1)
          = buf.take len ++ [c] := by
        have hlt1 : len + 1 = (buf.take len).length + 1 := by
          simp [List.length_take]; omega
        rw [hlt1, List.take_append]
        simp
      have h2 : (buf.take len ++ c :: buf.drop (len + 1)).drop (len + 1 + (c2 :: tl2).length)
          = buf.drop (len + (c :: c2 :: tl2).length) := by
        have hl : len + 1 + (c2 :: tl2).length
            = (buf.take len).length + (1 + (c2 :: tl2).length) := by
          simp [List.length_take]; omega
        rw [hl, List.drop_append]
        have hl2 : 1 + (c2 :: tl2).length = (c2 :: tl2).length + 1 := by omega
        rw [hl2, List.drop_succ_cons, List.drop_drop]
        congr 1
        simp
        omega
      simp only [Prod.mk.injEq]
      refine ⟨?_, by simp; omega, by simp; omega⟩
      rw [h1, h2]
      simp

theorem drop_append_of_drop_eq {d : Bytes} {i : Nat} {l t : Bytes}
    (h : d.drop i = l ++ t) : d.drop (i + l.length) = t := by
  have h2 : (d.drop i).drop l.length = t := by rw [h, List.drop_left]
  rwa [List.drop_drop] at h2

theorem chain_bytes_cons (r : WordRec) (c : List WordRec) :
    chain_bytes (r :: c) = encode_rec r ++ chain_bytes c := by
  simp [chain_bytes]

theorem wf_rec_iff {prevLen : Nat} {r : WordRec} :
    wf_rec prevLen r = true ↔
      (r.plen ≤ prevLen ∧ r.suffix ≠ [] ∧ (∀ b ∈ r.suffix, 0 < b ∧ b < 128) ∧
        r.plen + r.suffix.length ≤ 63 ∧ r.id < 65536) := by
  simp [wf_rec, List.isEmpty_iff, and_assoc]

/-- The record loop on an encoded chain finds exactly the first stored
id equal to `(u16)target`, returning that record's fully spliced word;
scanning to the chain's end leaves a 64-byte buffer for the next
letter. `prevW` is the word decoded before this point (empty at a
chain's head), still present in the buffer. -/
theorem gw_scan_spec (d : Bytes) (target : Nat) :
    ∀ (c : List WordRec) (fuel : Nat) (buf prevW : Bytes) (pos : Nat)
      (rest : Bytes) (first : Bool),
      c.length + 1 ≤ fuel →
      buf.length = 64 →
      buf.take prevW.length = prevW →
      (∀ b ∈ prevW, 0 < b ∧ b < 128) →
      wf_recs prevW.length c = true →
      (∀ x ∈ c.drop (if first then 1 else 0), 1 ≤ x.plen) →
      (first = true → c ≠ []) →
      d.drop pos = chain_bytes c ++ 0 :: rest →
      (gw_scan d target fuel buf pos first).1 =
        ((full_words prevW c).find? (fun p => p.2 == target % 65536)).map Prod.fst ∧
      (gw_scan d target fuel buf pos first).2.length = 64 := by
  intro c
  induction c with
  | nil =>
    intro fuel buf prevW pos rest first hfuel hbuf _ _ _ _ hfirst hd
    have hfalse : first = false := by
      cases first with
      | false => rfl
      | true => exact absurd rfl (hfirst rfl)
    subst hfalse
    match fuel, hfuel with
    | f + 1, _ =>
    have hpc : byteAt d pos = 0 := by
      have := byteAt_of_drop_eq (by simpa [chain_bytes] using hd) 0
      simpa [byteAt] using this
    simp [gw_scan, hpc, full_words, hbuf]
  | cons r c2 ih =>
    intro fuel buf prevW pos rest first hfuel hbuf hbtake hprevok hwf hp hfirst hd
    match fuel, hfuel with
    | f + 1, hf =>
    -- unpack record well-formedness
    have hwf2 : wf_rec prevW.length r = true ∧
        wf_recs (r.plen + r.suffix.length) c2 = true := by
      simpa [wf_recs, Bool.and_eq_true] using hwf
    obtain ⟨hplen, hsne, hchars, hroom, hid16⟩ := wf_rec_iff.mp hwf2.1
    -- layout of the record's bytes
    have hd1 : d.drop pos = r.plen ::
        (encode_chars r.suffix ++
          ([r.id / 256, r.id % 256] ++ (chain_bytes c2 ++ 0 :: rest))) := by
      rw [hd, chain_bytes_cons, encode_rec]
      simp
    have hpc : byteAt d pos = r.plen := by
      have := byteAt_of_drop_eq hd1 0
      simpa [byteAt] using this
    have hd2 : d.drop (pos + 1) = encode_chars r.suffix ++
        ([r.id / 256, r.id % 256] ++ (chain_bytes c2 ++ 0 :: rest)) :=
      drop_succ_of_drop_cons hd1
    -- the character loop
    have hcs := gw_chars_spec d r.suffix 64 buf r.plen (pos + 1)
      ([r.id / 256, r.id % 256] ++ (chain_bytes c2 ++ 0 :: rest))
      hsne (fun b hb => (hchars b hb).2) hroom hbuf (by omega) hd2
    have hplen63 : r.plen ≤ 63 := by
      have := List.length_pos.mpr hsne
      omega
    have hprevW64 : prevW.length ≤ 64 := by
      have := congrArg List.length hbtake
      simp [List.length_take] at this
      omega
    have hAeq : buf.take r.plen = prevW.take r.plen := by
      have h1 : prevW.take r.plen = (buf.take prevW.length).take r.plen := by
        rw [hbtake]
      rw [List.take_take, Nat.min_eq_left hplen] at h1
      exact h1.symm
    set w : Bytes := prevW.take r.plen ++ r.suffix with hw
    have hwlen : w.length = r.plen + r.suffix.length := by
      simp [hw, List.length_take]
      omega
    set B : Bytes := buf.take r.plen ++ r.suffix ++
        buf.drop (r.plen + r.suffix.length) with hB
    have hB64 : B.length = 64 := by
      simp [hB, List.length_take, List.length_drop]
      omega
    -- the nul write and the C string read back
    have hlenB : r.plen + r.suffix.length < B.length := by omega
    have hset := @List.set_eq_take_append_cons_drop Nat B (r.plen + r.suffix.length) 0
    rw [if_pos hlenB] at hset
    have hBtake : B.take (r.plen + r.suffix.length) = buf.take r.plen ++ r.suffix := by
      rw [hB]
      apply List.take_left'
      simp [List.length_take]
      omega
    have hwbytes : ∀ b ∈ w, 0 < b ∧ b < 128 := by
      intro b hb
      rcases List.mem_append.mp hb with h1 | h1
      · exact hprevok b (List.mem_of_mem_take h1)
      · exact hchars b h1
    have hcstr : c_str (B.set (r.plen + r.suffix.length) 0) = w := by
      rw [hset, hBtake, hAeq]
      exact c_str_append_zero w _ (fun b hb => Nat.pos_iff_ne_zero.mp (hwbytes b hb).1)
    -- the id bytes
    have hd3 : d.drop (pos + 1 + r.suffix.length) =
        [r.id / 256, r.id % 256] ++ (chain_bytes c2 ++ 0 :: rest) := by
      have := drop_append_of_drop_eq hd2
      rwa [encode_chars_length] at this
    have hhi : byteAt d (pos + 1 + r.suffix.length) = r.id / 256 := by
      have := byteAt_of_drop_eq hd3 0
      simpa [byteAt] using this
    have hlo : byteAt d (pos + 1 + r.suffix.length + 1) = r.id % 256 := by
      have := byteAt_of_drop_eq hd3 1
      simpa [byteAt] using this
    have hidval : load_be_16 (byteAt d (pos + 1 + r.suffix.length))
        (byteAt d (pos + 1 + r.suffix.length + 1)) = r.id := by
      rw [hhi, hlo]
      exact load_be_roundtrip r.id hid16
    -- the chain-end condition is false for this record
    have hcond : (!first && decide (byteAt d pos = 0)) = false := by
      cases first with
      | true => simp
      | false =>
        have : 1 ≤ r.plen := hp r (by simp)
        simp [hpc]
        omega
    -- unfold one step of the scan
    simp only [gw_scan, hcond, Bool.false_eq_true, if_false]
    rw [hpc, hcs]
    simp only
    rw [hidval]
    by_cases hidm : r.id = target % 65536
    · rw [if_pos hidm]
      have hfind : (full_words prevW (r :: c2)).find?
          (fun p => p.2 == target % 65536) = some (w, r.id) := by
        simp only [full_words]
        exact List.find?_cons_of_pos _ (by simpa using hidm)
      rw [hfind]
      refine ⟨by simpa using hcstr, ?_⟩
      simpa using hB64
    · rw [if_neg hidm]
      have hbuf2take : (B.set (r.plen + r.suffix.length) 0).take w.length = w := by
        rw [hset, hBtake, hAeq, hwlen]
        exact List.take_left' hwlen
      have hd4 : d.drop (pos + 1 + r.suffix.length + 2) =
          chain_bytes c2 ++ 0 :: rest := by
        have := drop_append_of_drop_eq hd3
        simpa using this
      have hrec := ih f (B.set (r.plen + r.suffix.length) 0) w
        (pos + 1 + r.suffix.length + 2) rest false
        (by simp at hf ⊢; omega)
        (by simpa using hB64)
        hbuf2take hwbytes
        (by rw [hwlen]; exact hwf2.2)
        (by
          intro x hx
          cases first with
          | true => exact hp x (by simpa using hx)
          | false => exact hp x (by simp at hx ⊢; exact Or.inr hx))
        (by intro hcontra; simp at hcontra)
        hd4
      have hfind : (full_words prevW (r :: c2)).find?
          (fun p => p.2 == target % 65536) =
          (full_words w c2).find? (fun p => p.2 == target % 65536) := by
        simp only [full_words]
        exact List.find?_cons_of_neg _ (by simpa using hidm)
      rw [hfind]
      exact hrec

theorem enc_header_length : ∀ (cs : List (List WordRec)) (pos : Nat),
    (enc_header cs pos).length = 2 * cs.length
  | [], _ => rfl
  | c :: rest, pos => by
    have ih : ∀ p, (enc_header rest p).length = 2 * rest.length :=
      fun p => enc_header_length rest p
    by_cases hc : c = [] <;> simp [enc_header, hc, ih] <;> omega

theorem enc_header_drop : ∀ (i : Nat) (cs : List (List WordRec)) (pos : Nat),
    i ≤ cs.length →
    (enc_header cs pos).drop (i * 2) =
      enc_header (cs.drop i) (pos + ((cs.take i).map chain_len).sum)
  | 0, cs, pos, _ => by simp
  | i + 1, [], pos, h => by simp at h
  | i + 1, c :: rest, pos, h => by
    have ih := enc_header_drop i rest (pos + chain_len c) (by simpa using h)
    have h2 : ((i : Nat) + 1) * 2 = i * 2 + 1 + 1 := by ring
    have hsum : (((c :: rest).take (i + 1)).map chain_len).sum
        = chain_len c + ((rest.take i).map chain_len).sum := by
      simp
    rw [h2, hsum]
    by_cases hc : c = [] <;>
      · rw [enc_header]
        first
        | rw [if_pos hc]
        | rw [if_neg hc]
        simp only [List.cons_append, List.nil_append, List.drop_succ_cons,
          List.drop_succ_cons, ih, List.drop_succ_cons]
        rw [← Nat.add_assoc]

theorem enc_body_drop : ∀ (i : Nat) (cs : List (List WordRec)),
    (enc_body cs).drop (((cs.take i).map chain_len).sum) = enc_body (cs.drop i)
  | 0, cs => by simp
  | i + 1, [] => by simp [enc_body]
  | i + 1, c :: rest => by
    have ih := enc_body_drop i rest
    have hlen : (if c = [] then ([] : Bytes) else encode_chain c).length = chain_len c := by
      by_cases hc : c = [] <;> simp [hc, chain_len, encode_chain]
    have hbody : enc_body (c :: rest) =
        (if c = [] then ([] : Bytes) else encode_chain c) ++ enc_body rest := by
      simp [enc_body]
    rw [hbody]
    simp only [List.take_succ_cons, List.map_cons, List.sum_cons, List.drop_succ_cons]
    rw [← hlen, ← List.drop_drop, List.drop_left, ih]

theorem records_le_chain_bytes : ∀ c : List WordRec,
    c.length ≤ (chain_bytes c).length
  | [] => by simp [chain_bytes]
  | r :: c => by
    have ih := records_le_chain_bytes c
    rw [chain_bytes_cons]
    simp only [List.length_append, List.length_cons, encode_rec]
    simp
    omega

theorem byteAt_append_left {l₁ l₂ : Bytes} {i : Nat} (h : i < l₁.length) :
    byteAt (l₁ ++ l₂) i = byteAt l₁ i := by
  simp [byteAt, List.getElem?_append_left h]

theorem wf_chain_iff {c : List WordRec} :
    wf_chain c = true ↔
      (wf_recs 0 c = true ∧ ∀ x ∈ c.drop 1, 1 ≤ x.plen) := by
  simp [wf_chain]

/-- The letter loop from letter `i` on (with `i + k = 26`) finds the
first matching id among the words of the remaining chains. -/
theorem gw_letters_spec (chains : List (List WordRec)) (target : Nat)
    (hlen26 : chains.length = 26)
    (hwfall : ∀ c ∈ chains, wf_chain c = true)
    (hsize : (encode_dict chains).length ≤ 65535) :
    ∀ (k i : Nat) (buf : Bytes), i + k = 26 → buf.length = 64 →
      gw_letters (encode_dict chains) target i k buf =
        (((chains.drop i).map (fun c => full_words [] c)).flatten.find?
          (fun p => p.2 == target % 65536)).map Prod.fst := by
  intro k
  induction k with
  | zero =>
    intro i buf hik _
    have hnil : chains.drop i = [] := List.drop_eq_nil_of_le (by omega)
    simp [gw_letters, hnil]
  | succ k ihk =>
    intro i buf hik hbuf
    have hi : i < chains.length := by omega
    have hdropc : chains.drop i = chains[i] :: chains.drop (i + 1) :=
      List.drop_eq_getElem_cons hi
    have hhl : (enc_header chains 52).length = 52 := by
      rw [enc_header_length, hlen26]
    have hi2 : i * 2 + 1 < 52 := by omega
    -- the two header bytes of letter i
    have hhdr : (enc_header chains 52).drop (i * 2) =
        enc_header (chains[i] :: chains.drop (i + 1)) (start_pos chains i) := by
      rw [enc_header_drop i chains 52 (by omega), hdropc, start_pos]
    have hb0 : byteAt (encode_dict chains) (i * 2) =
        byteAt (enc_header (chains[i] :: chains.drop (i + 1)) (start_pos chains i)) 0 := by
      rw [encode_dict, byteAt_append_left (by omega), ← hhdr,
        byteAt_drop]
      simp
    have hb1 : byteAt (encode_dict chains) (i * 2 + 1) =
        byteAt (enc_header (chains[i] :: chains.drop (i + 1)) (start_pos chains i)) 1 := by
      rw [encode_dict, byteAt_append_left (by omega), ← hhdr,
        byteAt_drop]
    by_cases hci : chains[i] = []
    · -- empty chain: offset bytes are 0 0, the letter is skipped
      have hoff : load_be_16 (byteAt (encode_dict chains) (i * 2))
          (byteAt (encode_dict chains) (i * 2 + 1)) = 0 := by
        rw [hb0, hb1]
        simp [enc_header, hci, byteAt, load_be_16]
      show gw_letters (encode_dict chains) target i (k + 1) buf = _
      simp only [gw_letters, hoff, if_pos rfl]
      rw [ihk (i + 1) buf (by omega) hbuf, hdropc]
      simp only [List.map_cons, List.flatten_cons, hci, full_words, List.nil_append]
      simp
    · -- nonempty chain: the offset is its body position
      have hsp_le : start_pos chains i ≤ (encode_dict chains).length := by
        have hsum : ((chains.take i).map chain_len).sum +
            ((chains.drop i).map chain_len).sum = (chains.map chain_len).sum := by
          rw [← List.sum_append, ← List.map_append, List.take_append_drop]
        have hbody : (enc_body chains).length = (chains.map chain_len).sum := by
          simp only [enc_body, List.length_flatten, List.map_map]
          congr 1
          apply List.map_congr_left
          intro c _
          by_cases hc : c = [] <;> simp [hc, chain_len, encode_chain, Function.comp]
        rw [encode_dict]
        simp only [List.length_append, hhl, start_pos]
        omega
      have hsp16 : start_pos chains i < 65536 := by omega
      have hoff : load_be_16 (byteAt (encode_dict chains) (i * 2))
          (byteAt (encode_dict chains) (i * 2 + 1)) = start_pos chains i := by
        have hdru : enc_header (chains[i] :: chains.drop (i + 1)) (start_pos chains i)
            = start_pos chains i / 256 :: start_pos chains i % 256 ::
                enc_header (chains.drop (i + 1))
                  (start_pos chains i + chain_len chains[i]) := by
          rw [enc_header, if_neg hci]
          rfl
        rw [hb0, hb1, hdru]
        exact load_be_roundtrip _ hsp16
      have hoffne : start_pos chains i ≠ 0 := by
        simp only [start_pos]
        omega
      -- the body of this chain
      have hdropsp : (encode_dict chains).drop (start_pos chains i) =
          chain_bytes chains[i] ++ 0 :: enc_body (chains.drop (i + 1)) := by
        have h1 := @List.drop_append Nat (enc_header chains 52) (enc_body chains)
          (((chains.take i).map chain_len).sum)
        rw [hhl] at h1
        rw [encode_dict, start_pos, h1, enc_body_drop i chains, hdropc]
        simp only [enc_body, List.map_cons, List.flatten_cons, if_neg hci]
        rw [encode_chain]
        simp
      have hwfc : wf_chain chains[i] = true := hwfall _ (List.getElem_mem hi)
      obtain ⟨hwfrecs, hplens⟩ := wf_chain_iff.mp hwfc
      have hfuel : chains[i].length + 1 ≤ (encode_dict chains).length + 1 := by
        have hlens := congrArg List.length hdropsp
        simp only [List.length_drop, List.length_append, List.length_cons] at hlens
        have := records_le_chain_bytes chains[i]
        omega
      have hspec := gw_scan_spec (encode_dict chains) target chains[i]
        ((encode_dict chains).length + 1) (buf.set 0 0) [] (start_pos chains i)
        (enc_body (chains.drop (i + 1))) true
        hfuel (by simpa using hbuf) rfl (by simp)
        hwfrecs (by simpa using hplens) (fun _ => hci) hdropsp
      show gw_letters (encode_dict chains) target i (k + 1) buf = _
      simp only [gw_letters, hoff, if_neg hoffne]
      rcases hscan : gw_scan (encode_dict chains) target
          ((encode_dict chains).length + 1) (buf.set 0 0) (start_pos chains i) true
        with ⟨o, buf2⟩
      rw [hscan] at hspec
      obtain ⟨ho, hbuf2⟩ := hspec
      simp only at ho hbuf2
      rw [hdropc]
      simp only [List.map_cons, List.flatten_cons, List.find?_append]
      rcases hfind : (full_words [] chains[i]).find? (fun p => p.2 == target % 65536)
        with _ | pr
      · have ho2 : o = none := by rw [hfind] at ho; simpa using ho
        subst ho2
        show gw_letters (encode_dict chains) target (i + 1) k buf2 = _
        rw [ihk (i + 1) buf2 (by omega) hbuf2, hfind]
        simp
      · have ho2 : o = some pr.1 := by rw [hfind] at ho; simpa using ho
        subst ho2
        show some pr.1 = _
        rw [hfind]
        simp

/-- With globally unique ids, the decoder's first-match scan finds the
entry of a present id. -/
theorem find_id_of_mem : ∀ (ws : List (Bytes × Nat)) (w : Bytes) (id0 : Nat),
    (ws.map Prod.snd).Nodup → (w, id0) ∈ ws →
    ws.find? (fun p => p.2 == id0) = some (w, id0)
  | [], _, _, _, hmem => by simp at hmem
  | p :: rest, w, id0, hnd, hmem => by
    rcases List.mem_cons.mp hmem with heq | hmem2
    · rw [← heq]
      exact List.find?_cons_of_pos _ (by simp)
    · have hnd1 : (p.2 :: rest.map Prod.snd).Nodup := by simpa using hnd
      obtain ⟨hhead, htail⟩ := List.nodup_cons.mp hnd1
      by_cases hp : p.2 = id0
      · exfalso
        apply hhead
        rw [hp]
        exact List.mem_map.mpr ⟨(w, id0), hmem2, rfl⟩
      · rw [List.find?_cons_of_neg _ (by simpa using hp)]
        exact find_id_of_mem rest w id0 htail hmem2

/-- Claim C3: dictionary round-trip. For a well-formed encoded
dictionary, `get_word_string` returns exactly the full decoded string
of every present word id — including words that splice a prefix of the
previous word of their letter chain — and NULL for an id stored in no
chain. -/
theorem C3_dictionary_roundtrip :
    ∀ (chains : List (List WordRec)) (wid : Nat) (buf : Bytes),
      wf_dict chains = true → wid < 65536 → buf.length = 64 →
      (∀ w : Bytes, (w, wid) ∈ dict_words chains →
        get_word_string (some (encode_dict chains)) wid buf = some w) ∧
      (wid ∉ (dict_words chains).map Prod.snd →
        get_word_string (some (encode_dict chains)) wid buf = none) := by
  intro chains wid buf hwf hwid hbuf
  have hw : chains.length = 26 ∧ (∀ c ∈ chains, wf_chain c = true) ∧
      ((dict_words chains).map Prod.snd).Nodup ∧
      (encode_dict chains).length ≤ 65535 := by
    simpa [wf_dict, List.all_eq_true, and_assoc] using hwf
  obtain ⟨h26, hall, hnodup, hsize⟩ := hw
  have hmod : wid % 65536 = wid := Nat.mod_eq_of_lt hwid
  have hmain : get_word_string (some (encode_dict chains)) wid buf =
      ((dict_words chains).find? (fun p => p.2 == wid)).map Prod.fst := by
    show gw_letters (encode_dict chains) wid 0 26 buf = _
    rw [gw_letters_spec chains wid h26 hall hsize 26 0 buf (by omega) hbuf]
    simp [dict_words, hmod]
  constructor
  · intro w hmem
    rw [hmain, find_id_of_mem (dict_words chains) w wid hnodup hmem]
    rfl
  · intro habs
    rw [hmain]
    have : (dict_words chains).find? (fun p => p.2 == wid) = none := by
      rw [List.find?_eq_none]
      intro p hp
      simp only [beq_iff_eq]
      intro hpe
      exact habs (List.mem_map.mpr ⟨p, hp, hpe⟩)
    rw [this]
    rfl

/-- A concrete dictionary: one letter chain storing "look" (id 5) and
then "loose" as prefix 3 + "se" (id 9). -/
def sample_chains : List (List WordRec) :=
  List.replicate 11 [] ++
    [⟨0, str "look", 5⟩, ⟨3, str "se", 9⟩] :: List.replicate 14 []

/-- Witness for C3 at `sample_chains`: id 9 resolves to the full
spliced word "loose" (not the stored suffix "se"), and the absent id 7
resolves to NULL. -/
theorem C3_dictionary_roundtrip_witness :
    get_word_string (some (encode_dict sample_chains)) 9
        (List.replicate 64 0) = some (str "loose") ∧
    get_word_string (some (encode_dict sample_chains)) 7
        (List.replicate 64 0) = none :=
  ⟨(C3_dictionary_roundtrip sample_chains 9 (List.replicate 64 0)
      (by decide) (by decide) (by decide)).1 (str "loose") (by decide),
   (C3_dictionary_roundtrip sample_chains 7 (List.replicate 64 0)
      (by decide) (by decide) (by decide)).2 (by decide)⟩

/-! ### Write-bounds instrumentation of the decoder

`gw_chars_writes` / `gw_scan_writes` / `gw_letters_writes` are the same
control flow as `gw_chars` / `gw_scan` / `gw_letters`, recording the
index of every store into the 64-byte decode buffer instead of its
contents: the bounds-checked character stores `buffer[len++] = c`
(llm_utils.c:72-73), the per-record nul terminator `buffer[len] = 0`
(llm_utils.c:89) — written WITHOUT a bounds check — and the per-letter
`buffer[0] = 0` (llm_utils.c:54). -/

/-- Indices written by the character loop, with the resulting `len` and
read position. -/
def gw_chars_writes (d : Bytes) : Nat → Nat → Nat → Nat × Nat × List Nat
  | 0, len, pos => (len, pos, [])
  | fuel + 1, len, pos =>
    let byte := byteAt d pos
    if len < 63 then
      if is_last_char byte then (len + 1, pos + 1, [len])
      else
        let r := gw_chars_writes d fuel (len + 1) (pos + 1)
        (r.1, r.2.1, len :: r.2.2)
    else (len, pos, [])

/-- Indices written by the record loop (`buffer[len] = 0` after each
record's characters) and whether the id was found. -/
def gw_scan_writes (d : Bytes) (target : Nat) : Nat → Nat → Bool → Bool × List Nat
  | 0, _, _ => (false, [])
  | fuel + 1, pos, first =>
    let pcount := byteAt d pos
    if !first && pcount = 0 then (false, [])
    else
      let r := gw_chars_writes d 64 pcount (pos + 1)
      let id := load_be_16 (byteAt d r.2.1) (byteAt d (r.2.1 + 1))
      if id = target % 65536 then (true, r.2.2 ++ [r.1])
      else
        let r2 := gw_scan_writes d target fuel (r.2.1 + 2) false
        (r2.1, r.2.2 ++ r.1 :: r2.2)

/-- Indices written by the letter loop (`buffer[0] = 0` per nonzero
offset, then the chain scan). -/
def gw_letters_writes (d : Bytes) (target : Nat) : Nat → Nat → List Nat
  | _, 0 => []
  | i, k + 1 =>
    let off := load_be_16 (byteAt d (i * 2)) (byteAt d (i * 2 + 1))
    if off = 0 then gw_letters_writes d target (i + 1) k
    else
      let r := gw_scan_writes d target (d.length + 1) off true
      if r.1 then 0 :: r.2
      else 0 :: r.2 ++ gw_letters_writes d target (i + 1) k

/-- All decode-buffer store indices of one `get_word_string` call. -/
def get_word_string_writes (dict : Option Bytes) (word_id : Nat) : List Nat :=
  match dict with
  | none => []
  | some d => gw_letters_writes d word_id 0 26

/-- A malformed dictionary: letter 0 points at a record whose prefix
byte is 200 — `len = prefix_count` then starts beyond the buffer and
the unchecked nul-terminator store lands at index 200. -/
def oob_dict : Bytes := [0, 52] ++ List.replicate 50 0 ++ [200, 158, 0, 5, 0]

/-- Claim C7 (code bug): the character stores are bounds-checked, but
the per-record nul terminator `buffer[len] = 0` is not; on a record
whose prefix byte is 200 the decoder stores to index 200 of the
64-byte buffer — outside it. -/
theorem C7_oob_write :
    byteAt oob_dict 52 = 200 ∧
    200 ∈ get_word_string_writes (some oob_dict) 5 ∧
    64 ≤ 200 := by
  decide

/-! ## Common-word hint memoization (extract_game_verbs)

`extract_game_verbs` (llm_utils.c:117-199; identical static copies in
nagi_llm_llamacpp.c:407-489 and llm_utils.h) scans the dictionary once
per process: a function-local `static char verb_list[512]` plus a
`static int verbs_extracted` memo flag. Its character loop differs from
`get_word_string`'s: an over-long word only skips the store and keeps
consuming bytes (no break), and each letter gets a fresh local
`char buffer[64]` (modelled zero-initialized; only `buffer[0] = 0` is
set by the code). The model stops a character loop that has run past
the end of the data (the C code would read out of bounds there). -/

/-- The character loop of `extract_game_verbs` (llm_utils.c:161-174). -/
def egv_chars (d : Bytes) : Nat → Bytes → Nat → Nat → Bytes × Nat × Nat
  | 0, buf, len, pos => (buf, len, pos)
  | fuel + 1, buf, len, pos =>
    let byte := byteAt d pos
    let buf1 := if len < 63 then buf.set len (decode_char byte) else buf
    let len1 := if len < 63 then len + 1 else len
    if is_last_char byte then (buf1, len1, pos + 1)
    else egv_chars d fuel buf1 len1 (pos + 1)

/-- `strncat(dst, src, sizeof(verb_list) - strlen(dst) - 1)` on the
512-byte `verb_list`: append at most the space left before the
terminator. -/
def verb_append (vl src : Bytes) : Bytes := vl ++ src.take (511 - vl.length)

/-- The per-letter record loop of `extract_game_verbs`
(llm_utils.c:148-189): while fewer than 50 verbs were collected, decode
a record and append its C string (when nonempty) to the comma-joined
list. Returns the verb count and list. -/
def egv_scan (d : Bytes) : Nat → Nat → Bool → Bytes → Nat → Bytes → Nat × Bytes
  | 0, _, _, _, vc, vl => (vc, vl)
  | fuel + 1, pos, first, buf, vc, vl =>
    if vc < 50 then
      let pcount := byteAt d pos
      if !first && pcount = 0 then (vc, vl)
      else
        let r := egv_chars d (d.length + 64) buf pcount (pos + 1)
        let buf2 := r.1.set r.2.1 0
        let w := c_str buf2
        if w ≠ [] then
          let vl1 := if vl ≠ [] then verb_append vl (str ", ") else vl
          egv_scan d fuel (r.2.2 + 2) false buf2 (vc + 1) (verb_append vl1 w)
        else
          egv_scan d fuel (r.2.2 + 2) false buf2 vc vl
    else (vc, vl)

/-- The letter loop of `extract_game_verbs` (llm_utils.c:139-190). -/
def egv_letters (d : Bytes) : Nat → Nat → Nat → Bytes → Bytes
  | _, 0, _, vl => vl
  | i, k + 1, vc, vl =>
    if vc < 50 then
      let off := load_be_16 (byteAt d (i * 2)) (byteAt d (i * 2 + 1))
      if off = 0 then egv_letters d (i + 1) k vc vl
      else
        let r := egv_scan d (d.length + 1) off true
          ((List.replicate 64 0).set 0 0) vc vl
        egv_letters d (i + 1) k r.1 r.2
    else vl

/-- The verb list computed from dictionary bytes (the non-memoized
core of `extract_game_verbs`). -/
def compute_verb_list (d : Bytes) : Bytes := egv_letters d 0 26 0 []

/-- The function-local static state of `extract_game_verbs`, plus the
dictionary pointer it reads (`state->dictionary_data`, set by
`set_dictionary`). -/
structure VerbsState where
  verbs_extracted : Bool
  verb_list : Bytes
  dictionary_data : Option Bytes
deriving DecidableEq

/-- `extract_game_verbs` as a state transformer: memoized on
`verbs_extracted`; a call with no dictionary loaded returns NULL
without setting the flag (llm_utils.c:124-131, 192). -/
def extract_game_verbs (st : VerbsState) : VerbsState × Option Bytes :=
  if st.verbs_extracted then (st, some st.verb_list)
  else match st.dictionary_data with
  | none => (st, none)
  | some d =>
    let vl := compute_verb_list d
    ({ st with verbs_extracted := true, verb_list := vl }, some vl)

/-- `set_dictionary` (nagi_llm.c:267-283): installs a new dictionary
pointer; it does not touch the verbs memo. -/
def set_dictionary (st : VerbsState) (d : Bytes) : VerbsState :=
  { st with dictionary_data := some d }

/-- Claim C10: the common-word hint is memoized once per process: the
first call that finds a dictionary loaded computes and caches the list
and sets the flag; every later call returns the identical cached list
and leaves the state unchanged, even after `set_dictionary` installs a
different dictionary; a first call with no dictionary returns NULL
without setting the memo flag. -/
theorem C10_verbs_memoized :
    (∀ (st : VerbsState) (d : Bytes),
      st.verbs_extracted = false → st.dictionary_data = some d →
      extract_game_verbs st =
        (⟨true, compute_verb_list d, st.dictionary_data⟩, some (compute_verb_list d))) ∧
    (∀ st : VerbsState, st.verbs_extracted = true →
      extract_game_verbs st = (st, some st.verb_list)) ∧
    (∀ (st : VerbsState) (d2 : Bytes), st.verbs_extracted = true →
      extract_game_verbs (set_dictionary st d2) =
        (set_dictionary st d2, some st.verb_list)) ∧
    (∀ (st : VerbsState) (d d2 : Bytes),
      st.verbs_extracted = false → st.dictionary_data = some d →
      (extract_game_verbs (set_dictionary (extract_game_verbs st).1 d2)).2
        = (extract_game_verbs st).2) ∧
    (∀ st : VerbsState, st.verbs_extracted = false → st.dictionary_data = none →
      extract_game_verbs st = (st, none)) := by
  refine ⟨?_, ?_, ?_, ?_, ?_⟩
  · intro st d hflag hdict
    simp [extract_game_verbs, hflag, hdict]
  · intro st hflag
    simp [extract_game_verbs, hflag]
  · intro st d2 hflag
    simp [extract_game_verbs, set_dictionary, hflag]
  · intro st d d2 hflag hdict
    simp [extract_game_verbs, set_dictionary, hflag, hdict]
  · intro st hflag hdict
    simp [extract_game_verbs, hflag, hdict]

/-- Witness for C10: a dictionary holding the single word "go" (id 3)
is memoized by the first call; installing a dictionary holding
"run" (id 4) instead does not change what later calls return. -/
theorem C10_verbs_memoized_witness :
    extract_game_verbs ⟨false, [],
        some (encode_dict (([⟨0, str "go", 3⟩] : List WordRec) :: List.replicate 25 []))⟩ =
      (⟨true, compute_verb_list (encode_dict (([⟨0, str "go", 3⟩] : List WordRec) :: List.replicate 25 [])),
        some (encode_dict (([⟨0, str "go", 3⟩] : List WordRec) :: List.replicate 25 []))⟩,
       some (compute_verb_list (encode_dict (([⟨0, str "go", 3⟩] : List WordRec) :: List.replicate 25 [])))) ∧
    (extract_game_verbs (set_dictionary
        (extract_game_verbs ⟨false, [],
          some (encode_dict (([⟨0, str "go", 3⟩] : List WordRec) :: List.replicate 25 []))⟩).1
        (encode_dict (([⟨0, str "run", 4⟩] : List WordRec) :: List.replicate 25 [])))).2
      = (extract_game_verbs ⟨false, [],
          some (encode_dict (([⟨0, str "go", 3⟩] : List WordRec) :: List.replicate 25 []))⟩).2 ∧
    extract_game_verbs ⟨false, [], none⟩ = (⟨false, [], none⟩, none) :=
  ⟨C10_verbs_memoized.1 ⟨false, [], _⟩ _ rfl rfl,
   C10_verbs_memoized.2.2.2.1 ⟨false, [], _⟩ _ _ rfl rfl,
   C10_verbs_memoized.2.2.2.2 ⟨false, [], none⟩ rfl rfl⟩

/-! ## Configuration loading (llm_config_parser.c)

The file is modelled as the list of lines `fgets` yields (each may end
in a newline; trimming removes it). Integer fields are `Int` (`atoi`);
float fields are modelled as exact rationals — the scenario under test
sets no float-valued key, so only the compiled-in default constants
(0.0f, 0.3f, 0.2f, 0.9f) appear, written as the same decimals. -/

/-- `isspace` of the C locale: space and the five control blanks. -/
def c_isspace (b : Nat) : Bool := b = 32 || (9 ≤ b && b ≤ 13)

/-- `trim_whitespace` (llm_config_parser.c:14-35): strip leading
whitespace, then trailing (the `end > str` guard never bites because
the front is already trimmed). -/
def trim_whitespace (s : Bytes) : Bytes :=
  let t := s.dropWhile c_isspace
  (t.reverse.dropWhile c_isspace).reverse

/-- Digit run of `atoi`/`atof`. -/
def c_digits (s : Bytes) : Nat :=
  (s.takeWhile (fun b => 48 ≤ b && b ≤ 57)).foldl (fun a b => a * 10 + (b - 48)) 0

/-- `atoi`: skip whitespace, optional sign, leading digits. -/
def c_atoi (s : Bytes) : Int :=
  let t := s.dropWhile c_isspace
  match t with
  | 45 :: r => -(c_digits r : Int)
  | 43 :: r => (c_digits r : Int)
  | _ => (c_digits t : Int)

/-- `atof` on decimal text, as an exact rational (the C version rounds
through double; no claim evaluates it where that matters). -/
def c_atof (s : Bytes) : ℚ :=
  let t := s.dropWhile c_isspace
  let neg : Bool := match t with | 45 :: _ => true | _ => false
  let t2 : Bytes := match t with | 45 :: r => r | 43 :: r => r | _ => t
  let ds := t2.takeWhile (fun b => 48 ≤ b && b ≤ 57)
  let ip : ℚ := (c_digits t2 : ℚ)
  let rest := t2.drop ds.length
  let fr : ℚ := match rest with
    | 46 :: r2 =>
      let fs := r2.takeWhile (fun b => 48 ≤ b && b ≤ 57)
      (c_digits r2 : ℚ) / ((10 : ℚ) ^ fs.length)
    | _ => 0
  if neg then -(ip + fr) else ip + fr

/-- `parse_config_line` (llm_config_parser.c:41-77), called with
`max_len = sizeof(key) = 128`: copy at most 1023 bytes, trim, drop
comments / empty lines / section headers, split at the first `=`, trim
both parts, succeed when the key is nonempty. -/
def parse_config_line (line : Bytes) (max_len : Nat) : Option (Bytes × Bytes) :=
  let temp := trim_whitespace (line.take 1023)
  match temp with
  | [] => none
  | h :: _ =>
    if h = 35 || h = 59 then none
    else if h = 91 then none
    else match temp.findIdx? (fun b => b == 61) with
    | none => none
    | some eq =>
      let key := trim_whitespace (temp.take (min eq (max_len - 1)))
      let value := trim_whitespace ((temp.drop (eq + 1)).take (max_len - 1))
      if key ≠ [] then some (key, value) else none

/-- `is_section_header` (llm_config_parser.c:83-103), called with
`max_len = 64`: a trimmed line starting with `[` up to the first `]`. -/
def is_section_header (line : Bytes) (max_len : Nat) : Option Bytes :=
  let temp := trim_whitespace (line.take 255)
  match temp with
  | [] => none
  | h :: _ =>
    if h ≠ 91 then none
    else match temp.findIdx? (fun b => b == 93) with
    | none => none
    | some endIdx =>
      some (trim_whitespace ((temp.drop 1).take (min (endIdx - 1) (max_len - 1))))

/-- The backend selector (include/nagi_llm.h:48-53). -/
inductive nagi_llm_backend_t where
  | undefined
  | llamacpp
  | bitnet
  | cloud
deriving DecidableEq

/-- The fields of `nagi_llm_config_t` (include/nagi_llm.h:58-79). -/
structure nagi_llm_config_t where
  model_path : Bytes
  api_key : Bytes
  api_endpoint : Bytes
  context_size : Int
  batch_size : Int
  u_batch_size : Int
  n_threads : Int
  temperature : ℚ
  temperature_creative_base : ℚ
  temperature_creative_offset : ℚ
  top_p : ℚ
  top_k : Int
  max_tokens : Int
  use_gpu : Int
  verbose : Int
  flash_attn : Int
  n_seq_max : Int
deriving DecidableEq

/-- The defaults `nagi_llm_load_config` installs before reading the
file (llm_config_parser.c:122-136, after `memset 0`). -/
def default_config : nagi_llm_config_t :=
  { model_path := [], api_key := [], api_endpoint := []
    context_size := 4096, batch_size := 1024, u_batch_size := 512
    n_threads := 4, temperature := 0, temperature_creative_base := 3/10
    temperature_creative_offset := 1/5, top_p := 9/10, top_k := 40
    max_tokens := 512, use_gpu := 1, verbose := 0, flash_attn := 0
    n_seq_max := 1 }

/-- The section name each backend reads (llm_config_parser.c:148-162). -/
def backend_section : nagi_llm_backend_t → Bytes
  | .llamacpp => str "llamacpp"
  | .bitnet => str "bitnet"
  | .cloud => str "cloud"
  | .undefined => []

/-- One `key=value` assignment (llm_config_parser.c:179-231). -/
def apply_config_key (backend : nagi_llm_backend_t) (current_section : Bytes)
    (key value : Bytes) (cfg : nagi_llm_config_t) : nagi_llm_config_t :=
  if current_section = str "common" then
    if key = str "temperature_extraction" then { cfg with temperature := c_atof value }
    else if key = str "temperature_creative_base" then
      { cfg with temperature_creative_base := c_atof value }
    else if key = str "temperature_creative_offset" then
      { cfg with temperature_creative_offset := c_atof value }
    else if key = str "max_tokens" then { cfg with max_tokens := c_atoi value }
    else if key = str "verbose" then { cfg with verbose := c_atoi value }
    else cfg
  else if current_section = backend_section backend then
    if backend = .llamacpp ∨ backend = .bitnet then
      if key = str "context_size" then { cfg with context_size := c_atoi value }
      else if key = str "batch_size" then { cfg with batch_size := c_atoi value }
      else if key = str "u_batch_size" then { cfg with u_batch_size := c_atoi value }
      else if key = str "n_threads" then { cfg with n_threads := c_atoi value }
      else if key = str "top_p" then { cfg with top_p := c_atof value }
      else if key = str "top_k" then { cfg with top_k := c_atoi value }
      else if key = str "use_gpu" then { cfg with use_gpu := c_atoi value }
      else if key = str "flash_attn" then { cfg with flash_attn := c_atoi value }
      else if key = str "n_seq_max" then { cfg with n_seq_max := c_atoi value }
      else cfg
    else if backend = .cloud then
      if key = str "api_url" then { cfg with api_endpoint := value.take 511 }
      else if key = str "api_key" then { cfg with api_key := value.take 255 }
      else if key = str "model" then { cfg with model_path := value.take 511 }
      else cfg
    else cfg
  else cfg

/-- The line loop of `nagi_llm_load_config` (llm_config_parser.c:165-232). -/
def config_lines (backend : nagi_llm_backend_t) (lines : List Bytes) : nagi_llm_config_t :=
  (lines.foldl
    (fun acc line =>
      match is_section_header line 64 with
      | some name => (name.take 63, acc.2)
      | none =>
        match parse_config_line line 128 with
        | none => acc
        | some kv => (acc.1, apply_config_key backend acc.1 kv.1 kv.2 acc.2))
    ([], default_config)).2

/-- `nagi_llm_load_config` (llm_config_parser.c:108-236): a missing
file leaves the defaults and returns 0; otherwise the lines are folded
over and 1 is returned. -/
def nagi_llm_load_config (backend : nagi_llm_backend_t)
    (file : Option (List Bytes)) : nagi_llm_config_t × Nat :=
  match file with
  | none => (default_config, 0)
  | some lines => (config_lines backend lines, 1)

/-- Claim C8: loading the cloud backend from a file containing
`[common] max_tokens=64` and `[cloud] model=gpt-test` yields
`max_tokens == 64` and `model_path == "gpt-test"`, with every other
field at its documented default (in particular top_p = 0.9,
context_size = 4096, temperature = 0.0). -/
theorem C8_config_scenario :
    nagi_llm_load_config .cloud (some
        [str "[common]\n", str "max_tokens=64\n", str "[cloud]\n", str "model=gpt-test\n"])
      = ({ default_config with max_tokens := 64, model_path := str "gpt-test" }, 1) ∧
    default_config.top_p = 9/10 ∧
    default_config.context_size = 4096 ∧
    default_config.temperature = 0 := by
  refine ⟨rfl, rfl, by decide, rfl⟩

/-- Witness for C9 (amended) at concrete inputs. -/
theorem C9_amended_witness :
    (llamacpp_extract_words_st [] true (some (str "abre la puerta"))
        (.sampled (str "open door"))).2 = .staticBuf ∧
    (llamacpp_extract_words_st [] true (some (str "abre la puerta"))
        (.sampled (str "open door"))).1 = normalize_extract (str "open door") ∧
    read_ptr (llamacpp_extract_words_st [] true (some (str "abre la puerta"))
        (.sampled (str "open door"))).2 (str "abre la puerta")
      (llamacpp_extract_words_st
        (llamacpp_extract_words_st [] true (some (str "abre la puerta"))
          (.sampled (str "open door"))).1
        true (some (str "coge la llave")) (.sampled (str "get key"))).1
      = normalize_extract (str "get key") ∧
    (cloud_extract_words_st [] true (some (str "abre la puerta"))
        (some (str "open door"))).2 = .staticBuf ∧
    (cloud_extract_words_st [] true (some (str "abre la puerta"))
        (some (str "open door"))).1 = normalize_extract (str "open door") :=
  C9_amended [] (str "abre la puerta") (str "coge la llave")
    (str "open door") (str "get key") (by decide) (by decide)

end NagiLLM
